import Mathlib

/-!
# Verification of the `gift` GIF codec (shallow embedding)

This file embeds the core state machines of the `gift` crate in Lean 4 and
proves (or refutes) the frozen specification claims about them.

Conventions of the embedding:
* Rust `u8`/`u16`/`u32` values are modelled as `Nat`; where the source
  truncates (`as u8`), the model takes `% 256`.
* `Vec<T>` becomes `List T`; in-place mutation becomes explicit state passing.
* Fallible operations return `Except Error`.
* Source loops whose termination depends on data invariants (the ternary
  search in `CTable::insert`, the parent walks in `DTable`, the
  `Decompressor::decompress` loop) are modelled with an explicit fuel
  argument; the fuel chosen is proved (or evident) to be sufficient under
  the corresponding invariants.
-/

set_option autoImplicit false

namespace Gift

/-- Error kinds, from `src/error.rs` (`InvalidCodeSize` from the `DecodeError`
revision, `InvalidLzwData` from the merged `Error` revision). -/
inductive Error where
  | malformedHeader
  | unsupportedVersion (version : List Nat)
  | invalidBlockCode
  | invalidBlockSequence
  | malformedGraphicControlExtension
  | unexpectedEndOfFile
  | invalidLzwData
  | invalidCodeSize
  | tooLargeImage
  | incompleteImageData
  | invalidFrameDimensions
  | missingColorTable
  | invalidColorIndex
  deriving DecidableEq, Repr

namespace Lzw

/-- `Bits::MAX` — maximum code bits allowed for GIF (`lzw.rs`). -/
def maxBits : Nat := 12

/-- `Bits::from(u8)` clamps to `Bits::MAX`. -/
def bitsFrom (b : Nat) : Nat := min b maxBits

/-- `Bits += rhs` clamps to `Bits::MAX`. -/
def bitsAdd (b rhs : Nat) : Nat := min (b + rhs) maxBits

/-- `Bits::entries` — the number of entries, `1 << bits`. -/
def entries (b : Nat) : Nat := 2 ^ b

/-- `Bits::mask` — the bit mask, `(1 << bits) - 1`. -/
def mask (b : Nat) : Nat := 2 ^ b - 1

/-- Node for the compressor table (`CNode`). -/
structure CNode where
  next : Option Nat
  left : Option Nat
  right : Option Nat
  data : Nat
  deriving DecidableEq, Repr

/-- `CNode::new`. -/
def CNode.new (next : Option Nat) (data : Nat) : CNode :=
  { next, left := none, right := none, data }

/-- `CNode::link`. -/
def CNode.link (n : CNode) : Ordering → Option Nat
  | .lt => n.left
  | .eq => n.next
  | .gt => n.right

/-- `CNode::set_link`. -/
def CNode.setLink (n : CNode) : Ordering → Nat → CNode
  | .lt, c => { n with left := some c }
  | .eq, c => { n with next := some c }
  | .gt, c => { n with right := some c }

/-- `CTable::reset` — literals `0..clear_code`, then clear and end nodes. -/
def ctReset (clearCode : Nat) : List CNode :=
  (List.range clearCode).map (fun d => CNode.new none d) ++
    [CNode.new none 0, CNode.new none 0]

/-- `CTable::new`. -/
def ctNew (minCodeBits : Nat) : List CNode := ctReset (2 ^ minCodeBits)

/-- The ternary-search loop of `CTable::insert`, with fuel for the `while`
loop (links always point to later-created nodes, so chains are finite). -/
def ctInsertGo (data nextCode : Nat) :
    Nat → List CNode → Nat → Ordering → Option Nat × List CNode
  | 0, t, _, _ => (none, t)
  | fuel + 1, t, idx, ord =>
    match (t.getD idx (CNode.new none 0)).link ord with
    | some c =>
      let ord2 := compare data (t.getD c (CNode.new none 0)).data
      if ord2 = .eq then (some c, t)
      else ctInsertGo data nextCode fuel t c ord2
    | none =>
      (none,
        t.set idx ((t.getD idx (CNode.new none 0)).setLink ord nextCode) ++
          [CNode.new none data])

/-- `CTable::insert`. -/
def ctInsert (t : List CNode) (code data : Nat) : Option Nat × List CNode :=
  ctInsertGo data t.length (t.length + 1) t code .eq

/-- `CTable::search_insert`. -/
def ctSearchInsert (t : List CNode) (code : Option Nat) (data : Nat) :
    Option Nat × List CNode :=
  match code with
  | some c => ctInsert t c data
  | none => (some data, t)

/-- LZW data compressor state (`Compressor`). -/
structure Compressor where
  table : List CNode
  minCodeBits : Nat
  codeBits : Nat
  code : Nat
  nBits : Nat
  deriving Repr

/-- `Compressor::new`. -/
def Compressor.new (minCodeBits : Nat) : Compressor :=
  { table := ctNew minCodeBits
    minCodeBits
    codeBits := bitsFrom (minCodeBits + 1)
    code := 0
    nBits := 0 }

/-- `Compressor::clear_code`. -/
def Compressor.clearCode (c : Compressor) : Nat := 2 ^ c.minCodeBits

/-- `Compressor::end_code`. -/
def Compressor.endCode (c : Compressor) : Nat := c.clearCode + 1

/-- The byte-flushing loop of `Compressor::pack` with structural fuel
(each iteration removes 8 bits, so `nBits` iterations always suffice). -/
def packFlushGo : Nat → Nat → Nat → List Nat → Nat × Nat × List Nat
  | 0, code, nBits, buffer => (code, nBits, buffer)
  | fuel + 1, code, nBits, buffer =>
    if 8 ≤ nBits then
      packFlushGo fuel (code / 256) (nBits - 8) (buffer ++ [code % 256])
    else (code, nBits, buffer)

/-- The byte-flushing loop of `Compressor::pack`: while at least 8 bits are
buffered, push the low byte. -/
def packFlush (code nBits : Nat) (buffer : List Nat) : Nat × Nat × List Nat :=
  packFlushGo nBits code nBits buffer

/-- `Compressor::pack`. -/
def Compressor.pack (c : Compressor) (code : Nat) (buffer : List Nat) :
    Compressor × List Nat :=
  let code2 := c.code ||| (code <<< c.nBits)
  let nBits2 := c.nBits + c.codeBits
  let r := packFlush code2 nBits2 buffer
  ({ c with code := r.1, nBits := r.2.1 }, r.2.2)

/-- Tail of the `for data in bytes` loop body of `Compressor::compress`:
the `next_code` width check, growing the code width through each
power-of-two boundary and emitting a clear code plus table reset when the
table would exceed `MAX_BITS` entries. -/
def Compressor.widthCheck (c3 : Compressor) (pfx2 : Option Nat)
    (buffer2 : List Nat) : Compressor × Option Nat × List Nat :=
  let nextCode := c3.table.length
  if nextCode > entries c3.codeBits then
    if nextCode ≤ entries maxBits then
      ({ c3 with codeBits := bitsAdd c3.codeBits 1 }, pfx2, buffer2)
    else
      let pk := c3.pack c3.clearCode buffer2
      ({ pk.1 with
          table := ctReset pk.1.clearCode,
          codeBits := bitsFrom (pk.1.minCodeBits + 1) }, pfx2, pk.2)
  else (c3, pfx2, buffer2)

/-- Body of the `for data in bytes` loop of `Compressor::compress`.
`pfx` is the local variable `code` (the current prefix code). -/
def Compressor.compressByte (c : Compressor) (pfx : Option Nat)
    (buffer : List Nat) (data : Nat) : Compressor × Option Nat × List Nat :=
  let si := ctSearchInsert c.table pfx data
  let c2 := { c with table := si.2 }
  let step :=
    match si.1 with
    | some k => (c2, some k, buffer)
    | none =>
      match pfx with
      | some p =>
        let pk := c2.pack p buffer
        (pk.1, some data, pk.2)
      | none => (c2, some data, buffer)
  Compressor.widthCheck step.1 step.2.1 step.2.2

/-- The `for` loop of `Compressor::compress` over all input bytes. -/
def Compressor.compressFold (c : Compressor) (pfx : Option Nat)
    (buffer : List Nat) : List Nat → Compressor × Option Nat × List Nat
  | [] => (c, pfx, buffer)
  | b :: rest =>
    let st := c.compressByte pfx buffer b
    Compressor.compressFold st.1 st.2.1 st.2.2 rest

/-- `Compressor::compress`: emit clear code, process all bytes, emit the
pending prefix (if any) and the end code. -/
def Compressor.compress (c : Compressor) (bytes : List Nat)
    (buffer : List Nat) : Compressor × List Nat :=
  let p1 := c.pack c.clearCode buffer
  let st := p1.1.compressFold none p1.2 bytes
  let c2 := st.1
  let p2 :=
    match st.2.1 with
    | some k => c2.pack k st.2.2
    | none => (c2, st.2.2)
  p2.1.pack p2.1.endCode p2.2

/-- Node for the decompressor table (`DNode`): a data byte and a parent code. -/
structure DNode where
  parent : Option Nat
  data : Nat
  deriving DecidableEq, Repr

/-- Default node used for (unreachable) out-of-bounds accesses. -/
def dnode0 : DNode := ⟨none, 0⟩

/-- `DTable::reset` — literals `0..clear_code`, then clear and end nodes. -/
def dtReset (clearCode : Nat) : List DNode :=
  (List.range clearCode).map (fun d => DNode.mk none d) ++ [dnode0, dnode0]

/-- The parent walk of `DTable::lookup`, with fuel. -/
def dtLookupGo (t : List DNode) : Nat → Nat → Nat
  | 0, c => (t.getD c dnode0).data
  | fuel + 1, c =>
    match (t.getD c dnode0).parent with
    | none => (t.getD c dnode0).data
    | some p => dtLookupGo t fuel p

/-- `DTable::lookup` — data value of the root of the parent chain of `code`.
Fuel `code` suffices because parent codes strictly decrease. -/
def dtLookup (t : List DNode) (c : Nat) : Nat := dtLookupGo t c c

/-- The parent walk of `DTable::decompress_reversed`, with fuel: the byte
sequence of `code`, reversed (current data first, root data last). -/
def dtDecompRevGo (t : List DNode) : Nat → Nat → List Nat
  | 0, c => [(t.getD c dnode0).data]
  | fuel + 1, c =>
    match (t.getD c dnode0).parent with
    | none => [(t.getD c dnode0).data]
    | some p => (t.getD c dnode0).data :: dtDecompRevGo t fuel p

/-- `DTable::decompress_reversed` (the bytes appended to the buffer). -/
def dtDecompressReversed (t : List DNode) (c : Nat) : List Nat :=
  dtDecompRevGo t c c

/-- LZW data decompressor state (`Decompressor`). -/
structure Decompressor where
  table : List DNode
  minCodeBits : Nat
  codeBits : Nat
  last : Option Nat
  code : Nat
  nBits : Nat
  deriving DecidableEq, Repr

/-- `Decompressor::new`. -/
def Decompressor.new (minCodeBits : Nat) : Decompressor :=
  { table := dtReset (2 ^ minCodeBits)
    minCodeBits
    codeBits := bitsFrom (minCodeBits + 1)
    last := none
    code := 0
    nBits := 0 }

/-- `Decompressor::clear_code`. -/
def Decompressor.clearCode (d : Decompressor) : Nat := 2 ^ d.minCodeBits

/-- `Decompressor::end_code`. -/
def Decompressor.endCode (d : Decompressor) : Nat := d.clearCode + 1

/-- The byte-absorbing loop of `Decompressor::unpack`; returns the updated
bit buffer, bit count and the number of bytes consumed. -/
def unpackLoop (codeBits : Nat) : List Nat → Nat → Nat → Nat × Nat × Nat
  | [], code, nBits => (code, nBits, 0)
  | b :: rest, code, nBits =>
    if nBits ≥ codeBits then (code, nBits, 0)
    else
      let r := unpackLoop codeBits rest (code ||| (b <<< nBits)) (nBits + 8)
      (r.1, r.2.1, r.2.2 + 1)

/-- `Decompressor::unpack` — one code from the buffer, LSB-first. -/
def Decompressor.unpack (d : Decompressor) (buffer : List Nat) :
    Decompressor × Option Nat × Nat :=
  let r := unpackLoop d.codeBits buffer d.code d.nBits
  let code := r.1
  let nBits := r.2.1
  let consumed := r.2.2
  if nBits ≥ d.codeBits then
    ({ d with code := code >>> d.codeBits, nBits := nBits - d.codeBits },
      some (code &&& mask d.codeBits), consumed)
  else ({ d with code := code, nBits := nBits }, none, consumed)

/-- The width bump at the end of `Decompressor::decompress_reversed`:
`if next_code + 1 == self.code_bits.entries() { self.code_bits += 1 }`. -/
def bumpBits (nextCode : Nat) (d : Decompressor) : Decompressor :=
  if nextCode + 1 = entries d.codeBits then
    { d with codeBits := bitsAdd d.codeBits 1 }
  else d

/-- `Decompressor::decompress_reversed` — decompress one code, appending its
reversed byte sequence to the buffer and growing the table. -/
def Decompressor.decompressReversed (d : Decompressor) (code : Nat)
    (buffer : List Nat) : Except Error (Decompressor × List Nat) :=
  let nextCode := d.table.length
  match d.last, compare code nextCode with
  | _, .gt => .error .invalidLzwData
  | some last, .lt =>
    let buffer2 := buffer ++ dtDecompressReversed d.table code
    let data := buffer2.getLastD 0
    .ok (bumpBits nextCode { d with table := d.table ++ [⟨some last, data⟩] },
      buffer2)
  | some last, .eq =>
    let t2 := d.table ++ [⟨some last, dtLookup d.table last⟩]
    .ok (bumpBits nextCode { d with table := t2 },
      buffer ++ dtDecompressReversed t2 code)
  | none, _ => .ok (bumpBits nextCode d, buffer ++ [code % 256])

/-- `Decompressor::decompress_code` — clear resets the table, end is
skipped, any other code is decompressed (reversed in place) and recorded
as the last code. -/
def Decompressor.decompressCode (d : Decompressor) (code : Nat)
    (buffer : List Nat) : Except Error (Decompressor × List Nat) :=
  if code = d.clearCode then
    .ok ({ d with
            table := dtReset d.clearCode,
            codeBits := bitsFrom (d.minCodeBits + 1),
            last := none }, buffer)
  else if code = d.endCode then .ok (d, buffer)
  else
    match d.decompressReversed code buffer with
    | .error e => .error e
    | .ok (d2, buffer2) =>
      let start := buffer.length
      .ok ({ d2 with last := some code },
        buffer2.take start ++ (buffer2.drop start).reverse)

/-- The `while let` loop of `Decompressor::decompress`, with fuel (each
iteration either consumes a byte or at least one buffered bit). -/
def Decompressor.decompressGo :
    Nat → Decompressor → List Nat → List Nat →
      Except Error (Decompressor × List Nat)
  | 0, d, _, buffer => .ok (d, buffer)
  | fuel + 1, d, bytes, buffer =>
    let u := d.unpack bytes
    match u.2.1 with
    | some code =>
      match u.1.decompressCode code buffer with
      | .error e => .error e
      | .ok (d2, buffer2) =>
        Decompressor.decompressGo fuel d2 (bytes.drop u.2.2) buffer2
    | none => .ok (u.1, buffer)

/-- `Decompressor::decompress` — unpack codes until the bits run out.  The
fuel `8·|bytes| + n_bits + 1` bounds the iteration count whenever
`code_bits ≥ 1`. -/
def Decompressor.decompress (d : Decompressor) (bytes buffer : List Nat) :
    Except Error (Decompressor × List Nat) :=
  Decompressor.decompressGo (8 * bytes.length + d.nBits + 1) d bytes buffer

/-- Compress `bytes` with a fresh compressor, then decompress the produced
bytes with a fresh decompressor (the round trip of the claim). -/
def lzwRoundTrip (m : Nat) (bytes : List Nat) : Except Error (List Nat) :=
  let comp := (Compressor.new m).compress bytes []
  match (Decompressor.new m).decompress comp.2 [] with
  | .error e => .error e
  | .ok (_, out) => .ok out

/-- Run `decompress_code` on a whole sequence of codes (the per-code input
stream of the decompressor, as `Decompressor::decompress` produces it by
unpacking bits). -/
def feedCodes (d : Decompressor) (buffer : List Nat) :
    List Nat → Except Error (Decompressor × List Nat)
  | [] => .ok (d, buffer)
  | c :: rest =>
    match d.decompressCode c buffer with
    | .error e => .error e
    | .ok (d2, buffer2) => feedCodes d2 buffer2 rest

/-- Table of a successful decompressor run (empty on error). -/
def resultTable (r : Except Error (Decompressor × List Nat)) : List DNode :=
  match r with
  | .ok st => st.1.table
  | .error _ => []

/-- A node's parent, when present, is strictly below the given index. -/
def parentLT (n : DNode) (i : Nat) : Prop :=
  ∀ p, n.parent = some p → p < i

instance instDecParentLT (n : DNode) (i : Nat) : Decidable (parentLT n i) :=
  match h : n.parent with
  | none => isTrue (by intro p hp; rw [h] at hp; cases hp)
  | some p =>
    if hpi : p < i then
      isTrue (by intro q hq; rw [h] at hq; cases hq; exact hpi)
    else isFalse (fun hall => hpi (hall p h))

/-- Well-formed decompressor table: every node's parent pointer, when
present, refers to a strictly smaller node index. -/
def WFd (t : List DNode) : Prop :=
  ∀ i, i < t.length → parentLT (t.getD i dnode0) i

instance instDecWFd (t : List DNode) : Decidable (WFd t) :=
  Nat.decidableBallLT t.length (fun i _ => parentLT (t.getD i dnode0) i)

/-- Full decompressor invariant: well-formed table, and the remembered last
code (when set) lies inside the table. -/
def DInv (d : Decompressor) : Prop :=
  WFd d.table ∧ ∀ l, d.last = some l → l < d.table.length

end Lzw

end Gift

namespace Gift.Lzw

@[simp] lemma ctReset_length (k : Nat) : (ctReset k).length = k + 2 := by
  simp [ctReset]

@[simp] lemma dtReset_length (k : Nat) : (dtReset k).length = k + 2 := by
  simp [dtReset]

@[simp] lemma pack_table (c : Compressor) (k : Nat) (buf : List Nat) :
    ((c.pack k buf).1).table = c.table := rfl

@[simp] lemma pack_codeBits (c : Compressor) (k : Nat) (buf : List Nat) :
    ((c.pack k buf).1).codeBits = c.codeBits := rfl

@[simp] lemma pack_minCodeBits (c : Compressor) (k : Nat) (buf : List Nat) :
    ((c.pack k buf).1).minCodeBits = c.minCodeBits := rfl

lemma ctInsertGo_length (data nextCode : Nat) :
    ∀ fuel t idx ord,
      ((ctInsertGo data nextCode fuel t idx ord).2).length ≤ t.length + 1 := by
  intro fuel
  induction fuel with
  | zero => intro t idx ord; simp [ctInsertGo]
  | succ n ih =>
    intro t idx ord
    simp only [ctInsertGo]
    split
    · split
      · simp
      · exact ih t _ _
    · simp

lemma ctSearchInsert_length (t : List CNode) (code : Option Nat) (data : Nat) :
    ((ctSearchInsert t code data).2).length ≤ t.length + 1 := by
  cases code with
  | none => simp [ctSearchInsert]
  | some c => exact ctInsertGo_length data t.length (t.length + 1) t c .eq

/-- Compressor state invariant for claim C2: code width at most 12 and code
table never above the 4096-entry cap (with the min code bits fixed). -/
def CInv (m : Nat) (c : Compressor) : Prop :=
  c.minCodeBits = m ∧ c.codeBits ≤ maxBits ∧ c.table.length ≤ entries maxBits

lemma widthCheck_CInv (m : Nat) (hm : m ≤ 8) (c3 : Compressor)
    (pfx2 : Option Nat) (buffer2 : List Nat) (hmin : c3.minCodeBits = m)
    (hbits : c3.codeBits ≤ maxBits)
    (hlen : c3.table.length ≤ entries maxBits + 1) :
    CInv m (c3.widthCheck pfx2 buffer2).1 := by
  simp only [Compressor.widthCheck]
  split
  · split
    · rename_i hle
      exact ⟨hmin, Nat.min_le_right _ _, hle⟩
    · refine ⟨by simp [hmin], Nat.min_le_right _ _, ?_⟩
      have h2m : 2 ^ m ≤ 2 ^ 8 := Nat.pow_le_pow_right (by norm_num) hm
      simp only [ctReset_length, pack_minCodeBits, Compressor.clearCode, hmin]
      simp only [entries, maxBits]
      omega
  · rename_i hle
    have : c3.table.length ≤ entries c3.codeBits := by omega
    exact ⟨hmin, hbits,
      le_trans this (Nat.pow_le_pow_right (by norm_num) hbits)⟩

lemma compressByte_CInv (m : Nat) (hm : m ≤ 8) (c : Compressor)
    (pfx : Option Nat) (buffer : List Nat) (data : Nat) (hc : CInv m c) :
    CInv m (c.compressByte pfx buffer data).1 := by
  obtain ⟨hmin, hbits, hlen⟩ := hc
  have hins := ctSearchInsert_length c.table pfx data
  simp only [Compressor.compressByte]
  rcases hfound : (ctSearchInsert c.table pfx data).1 with _ | k <;>
    rcases hpfx : pfx with _ | p <;>
      simp only [hfound, hpfx] <;>
        apply widthCheck_CInv m hm <;>
          simp_all <;> omega

lemma compressFold_CInv (m : Nat) (hm : m ≤ 8) :
    ∀ (bytes : List Nat) (c : Compressor) (pfx : Option Nat)
      (buffer : List Nat), CInv m c →
      CInv m (c.compressFold pfx buffer bytes).1 := by
  intro bytes
  induction bytes with
  | nil => intro c pfx buffer hc; simpa [Compressor.compressFold] using hc
  | cons b rest ih =>
    intro c pfx buffer hc
    simp only [Compressor.compressFold]
    exact ih _ _ _ (compressByte_CInv m hm c pfx buffer b hc)

lemma CInv_new (m : Nat) (hm : m ≤ 8) : CInv m (Compressor.new m) := by
  refine ⟨rfl, Nat.min_le_right _ _, ?_⟩
  have h2m : 2 ^ m ≤ 2 ^ 8 := Nat.pow_le_pow_right (by norm_num) hm
  simp only [Compressor.new, ctNew, ctReset_length, entries, maxBits]
  omega

lemma compress_CInv (m : Nat) (hm : m ≤ 8) (c : Compressor)
    (bytes buffer : List Nat) (hc : CInv m c) :
    CInv m ((c.compress bytes buffer).1) := by
  simp only [Compressor.compress]
  have h1 : CInv m ((c.pack c.clearCode buffer).1) := by
    exact ⟨by simpa using hc.1, by simpa using hc.2.1, by simpa using hc.2.2⟩
  have h2 := compressFold_CInv m hm bytes _ none (c.pack c.clearCode buffer).2 h1
  rcases h2 with ⟨ha, hb, hcc⟩
  rcases hp : ((c.pack c.clearCode buffer).1.compressFold none
      (c.pack c.clearCode buffer).2 bytes).2.1 with _ | k <;>
    simp [hp] <;> exact ⟨ha, hb, hcc⟩

lemma getD_parent_none_of_ge (t : List DNode) (c : Nat) (h : t.length ≤ c) :
    (t.getD c dnode0).parent = none := by
  rw [List.getD_eq_default _ _ h]; rfl

lemma wf_parent_lt (t : List DNode) (hwf : WFd t) {c p : Nat}
    (hp : (t.getD c dnode0).parent = some p) : p < c := by
  by_cases hc : c < t.length
  · exact hwf c hc p hp
  · rw [getD_parent_none_of_ge t c (le_of_not_lt hc)] at hp; cases hp

lemma dtLookupGo_parent_none (t : List DNode) (c : Nat)
    (h : (t.getD c dnode0).parent = none) :
    ∀ f, dtLookupGo t f c = (t.getD c dnode0).data := by
  intro f
  cases f with
  | zero => rfl
  | succ n => simp only [dtLookupGo, h]

lemma dtDecompRevGo_parent_none (t : List DNode) (c : Nat)
    (h : (t.getD c dnode0).parent = none) :
    ∀ f, dtDecompRevGo t f c = [(t.getD c dnode0).data] := by
  intro f
  cases f with
  | zero => rfl
  | succ n => simp only [dtDecompRevGo, h]

/-- Fuel insensitivity of the `DTable::lookup` walk: under the
strict-parent invariant, any fuel at least `c` gives the same result
(i.e. the walk terminates within `c` steps). -/
lemma dtLookupGo_fuel (t : List DNode) (hwf : WFd t) :
    ∀ c f g, c ≤ f → c ≤ g → dtLookupGo t f c = dtLookupGo t g c := by
  intro c
  induction c using Nat.strong_induction_on with
  | _ c ih =>
    intro f g hf hg
    cases hp : (t.getD c dnode0).parent with
    | none => rw [dtLookupGo_parent_none t c hp, dtLookupGo_parent_none t c hp]
    | some p =>
      have hpc : p < c := wf_parent_lt t hwf hp
      obtain ⟨f2, rfl⟩ : ∃ f2, f = f2 + 1 := ⟨f - 1, by omega⟩
      obtain ⟨g2, rfl⟩ : ∃ g2, g = g2 + 1 := ⟨g - 1, by omega⟩
      simp only [dtLookupGo, hp]
      exact ih p hpc f2 g2 (by omega) (by omega)

/-- Fuel insensitivity of the `DTable::decompress_reversed` walk. -/
lemma dtDecompRevGo_fuel (t : List DNode) (hwf : WFd t) :
    ∀ c f g, c ≤ f → c ≤ g → dtDecompRevGo t f c = dtDecompRevGo t g c := by
  intro c
  induction c using Nat.strong_induction_on with
  | _ c ih =>
    intro f g hf hg
    cases hp : (t.getD c dnode0).parent with
    | none =>
      rw [dtDecompRevGo_parent_none t c hp, dtDecompRevGo_parent_none t c hp]
    | some p =>
      have hpc : p < c := wf_parent_lt t hwf hp
      obtain ⟨f2, rfl⟩ : ∃ f2, f = f2 + 1 := ⟨f - 1, by omega⟩
      obtain ⟨g2, rfl⟩ : ∃ g2, g = g2 + 1 := ⟨g - 1, by omega⟩
      simp only [dtDecompRevGo, hp]
      rw [ih p hpc f2 g2 (by omega) (by omega)]

lemma getD_append_lt (t xs : List DNode) (c : Nat) (hc : c < t.length) :
    (t ++ xs).getD c dnode0 = t.getD c dnode0 := by
  unfold List.getD
  rw [List.get?_append hc]

/-- Walks only visit the original part of an extended table. -/
lemma dtDecompRevGo_append (t xs : List DNode) (hwf : WFd t) :
    ∀ f c, c < t.length →
      dtDecompRevGo (t ++ xs) f c = dtDecompRevGo t f c := by
  intro f
  induction f with
  | zero =>
    intro c hc
    simp only [dtDecompRevGo, getD_append_lt t xs c hc]
  | succ n ih =>
    intro c hc
    have hg := getD_append_lt t xs c hc
    cases hp : (t.getD c dnode0).parent with
    | none =>
      rw [dtDecompRevGo_parent_none (t ++ xs) c (by rw [hg]; exact hp),
        dtDecompRevGo_parent_none t c hp, hg]
    | some p =>
      have h1 : dtDecompRevGo (t ++ xs) (n + 1) c =
          (t.getD c dnode0).data :: dtDecompRevGo (t ++ xs) n p := by
        simp only [dtDecompRevGo, hg, hp]
      have h2 : dtDecompRevGo t (n + 1) c =
          (t.getD c dnode0).data :: dtDecompRevGo t n p := by
        simp only [dtDecompRevGo, hp]
      rw [h1, h2, ih p (lt_trans (hwf c hc p hp) hc)]

lemma dtLookupGo_append (t xs : List DNode) (hwf : WFd t) :
    ∀ f c, c < t.length → dtLookupGo (t ++ xs) f c = dtLookupGo t f c := by
  intro f
  induction f with
  | zero =>
    intro c hc
    simp only [dtLookupGo, getD_append_lt t xs c hc]
  | succ n ih =>
    intro c hc
    have hg := getD_append_lt t xs c hc
    cases hp : (t.getD c dnode0).parent with
    | none =>
      rw [dtLookupGo_parent_none (t ++ xs) c (by rw [hg]; exact hp),
        dtLookupGo_parent_none t c hp, hg]
    | some p =>
      have h1 : dtLookupGo (t ++ xs) (n + 1) c = dtLookupGo (t ++ xs) n p := by
        simp only [dtLookupGo, hg, hp]
      have h2 : dtLookupGo t (n + 1) c = dtLookupGo t n p := by
        simp only [dtLookupGo, hp]
      rw [h1, h2, ih p (lt_trans (hwf c hc p hp) hc)]

lemma dtDecompRevGo_ne_nil (t : List DNode) (f c : Nat) :
    dtDecompRevGo t f c ≠ [] := by
  cases f with
  | zero => simp [dtDecompRevGo]
  | succ n =>
    simp only [dtDecompRevGo]
    cases (t.getD c dnode0).parent <;> simp

/-- The last byte of the reversed walk is the root data, i.e. `lookup`. -/
lemma dtDecompRevGo_getLastD (t : List DNode) :
    ∀ f c, (dtDecompRevGo t f c).getLastD 0 = dtLookupGo t f c := by
  intro f
  induction f with
  | zero => intro c; rfl
  | succ n ih =>
    intro c
    cases hp : (t.getD c dnode0).parent with
    | none =>
      rw [dtDecompRevGo_parent_none t c hp, dtLookupGo_parent_none t c hp]
      rfl
    | some p =>
      have h1 : dtDecompRevGo t (n + 1) c =
          (t.getD c dnode0).data :: dtDecompRevGo t n p := by
        simp only [dtDecompRevGo, hp]
      have h2 : dtLookupGo t (n + 1) c = dtLookupGo t n p := by
        simp only [dtLookupGo, hp]
      rw [h1, h2, List.getLastD_cons]
      have hne := dtDecompRevGo_ne_nil t n p
      have ihp := ih p
      rcases hlast : dtDecompRevGo t n p with _ | ⟨a, l⟩
      · exact absurd hlast hne
      · rw [hlast, List.getLastD_cons] at ihp
        rw [List.getLastD_cons]
        exact ihp

@[simp] lemma bumpBits_table (n : Nat) (d : Decompressor) :
    (bumpBits n d).table = d.table := by
  unfold bumpBits; split <;> rfl

@[simp] lemma bumpBits_last (n : Nat) (d : Decompressor) :
    (bumpBits n d).last = d.last := by
  unfold bumpBits; split <;> rfl

@[simp] lemma bumpBits_minCodeBits (n : Nat) (d : Decompressor) :
    (bumpBits n d).minCodeBits = d.minCodeBits := by
  unfold bumpBits; split <;> rfl

/-- The KwKwK emission: in the table extended with the fresh node
`(last, lookup last)`, decompressing the fresh code yields the lookup byte
followed by the reversed string of `last`. -/
lemma kwkwk_walk (t : List DNode) (l : Nat) (hwf : WFd t)
    (hl : l < t.length) :
    dtDecompressReversed (t ++ [DNode.mk (some l) (dtLookup t l)]) t.length =
      dtLookup t l :: dtDecompressReversed t l := by
  have hget : (t ++ [DNode.mk (some l) (dtLookup t l)]).getD t.length dnode0 =
      DNode.mk (some l) (dtLookup t l) := by
    unfold List.getD
    rw [List.get?_append_right (le_refl _)]
    simp
  obtain ⟨n, hn⟩ : ∃ n, t.length = n + 1 := ⟨t.length - 1, by omega⟩
  unfold dtDecompressReversed
  rw [hn]
  simp only [dtDecompRevGo, hn ▸ hget]
  rw [dtDecompRevGo_append t _ hwf n l hl,
    dtDecompRevGo_fuel t hwf l n l (by omega) (le_refl l)]

lemma getD_append_self (t : List DNode) (x : DNode) :
    (t ++ [x]).getD t.length dnode0 = x := by
  unfold List.getD
  rw [List.get?_append_right (le_refl _)]
  simp

lemma dtReset_getD_parent (k i : Nat) :
    ((dtReset k).getD i dnode0).parent = none := by
  unfold dtReset List.getD
  rcases lt_or_ge i k with hi | hi
  · rw [List.get?_append (by simpa using hi)]
    simp [List.getElem?_range hi]
  · rw [List.get?_append_right (by simpa using hi)]
    rcases h : i - k with _ | _ | m <;> simp [h, dnode0]

lemma WFd_dtReset (k : Nat) : WFd (dtReset k) := by
  intro i _ p hp
  rw [dtReset_getD_parent] at hp
  cases hp

lemma WFd_push (t : List DNode) (l dat : Nat) (hwf : WFd t)
    (hl : l < t.length) : WFd (t ++ [DNode.mk (some l) dat]) := by
  intro i hi p hp
  rcases lt_or_ge i t.length with h | h
  · rw [getD_append_lt t _ i h] at hp
    exact hwf i h p hp
  · have hilen : i = t.length := by
      simp only [List.length_append, List.length_singleton] at hi
      omega
    subst hilen
    rw [getD_append_self] at hp
    cases hp
    omega

lemma decompressReversed_last_none (d : Decompressor) (c : Nat)
    (buf : List Nat) (hl : d.last = none) (hc : c ≤ d.table.length) :
    d.decompressReversed c buf =
      .ok (bumpBits d.table.length d, buf ++ [c % 256]) := by
  rcases Nat.lt_or_ge c d.table.length with h | h
  · have hcmp : compare c d.table.length = .lt := compare_lt_iff_lt.mpr h
    simp only [Decompressor.decompressReversed, hl, hcmp]
  · have hceq : c = d.table.length := by omega
    have hcmp : compare c d.table.length = .eq :=
      compare_eq_iff_eq.mpr hceq
    simp only [Decompressor.decompressReversed, hl, hcmp]

lemma decompressReversed_last_lt (d : Decompressor) (c l : Nat)
    (buf : List Nat) (hl : d.last = some l) (hc : c < d.table.length) :
    d.decompressReversed c buf =
      .ok (bumpBits d.table.length
            { d with table := d.table ++
              [DNode.mk (some l)
                ((buf ++ dtDecompressReversed d.table c).getLastD 0)] },
        buf ++ dtDecompressReversed d.table c) := by
  have hcmp : compare c d.table.length = .lt := compare_lt_iff_lt.mpr hc
  simp only [Decompressor.decompressReversed, hl, hcmp]

lemma decompressReversed_last_eq (d : Decompressor) (l : Nat)
    (buf : List Nat) (hl : d.last = some l) :
    d.decompressReversed d.table.length buf =
      .ok (bumpBits d.table.length
            { d with table := d.table ++
              [DNode.mk (some l) (dtLookup d.table l)] },
        buf ++ dtDecompressReversed
          (d.table ++ [DNode.mk (some l) (dtLookup d.table l)])
          d.table.length) := by
  have hcmp : compare d.table.length d.table.length = .eq :=
    compare_eq_iff_eq.mpr rfl
  simp only [Decompressor.decompressReversed, hl, hcmp]

lemma decompressReversed_gt (d : Decompressor) (c : Nat) (buf : List Nat)
    (hc : d.table.length < c) :
    d.decompressReversed c buf = .error .invalidLzwData := by
  have hcmp : compare c d.table.length = .gt := compare_gt_iff_gt.mpr hc
  rcases hl : d.last with _ | l <;>
    simp only [Decompressor.decompressReversed, hl, hcmp]

/-- C3: when the decompressor holds a previous code `last` and receives the
code equal to `next_code` (the KwKwK case), it appends the node
`(last, firstByte last)` to the table and emits
`string(last) ++ [firstByte last]`; a code above `next_code` fails with
`InvalidLzwData`. -/
theorem C3_decompress_kwkwk (d : Decompressor) (buf : List Nat) (l : Nat)
    (hwf : WFd d.table) (hlast : d.last = some l) (hl : l < d.table.length)
    (hclear : d.clearCode + 2 ≤ d.table.length) :
    (∃ d2, d.decompressCode d.table.length buf =
        .ok (d2, buf ++ (dtDecompressReversed d.table l).reverse ++
          [dtLookup d.table l]) ∧
      d2.table = d.table ++ [DNode.mk (some l) (dtLookup d.table l)] ∧
      d2.last = some d.table.length) ∧
    (∀ c, d.table.length < c →
      d.decompressCode c buf = .error .invalidLzwData) := by
  have hne1 : ¬ (d.table.length = d.clearCode) := by omega
  have hne2 : ¬ (d.table.length = d.endCode) := by
    simp only [Decompressor.endCode]; omega
  constructor
  · refine ⟨{ bumpBits d.table.length
        { d with table := d.table ++
          [DNode.mk (some l) (dtLookup d.table l)] } with
        last := some d.table.length }, ?_, by simp, rfl⟩
    simp only [Decompressor.decompressCode, if_neg hne1, if_neg hne2,
      decompressReversed_last_eq d l buf hlast]
    rw [kwkwk_walk d.table l hwf hl]
    rw [List.take_left, List.drop_left, List.reverse_cons,
      ← List.append_assoc]
  · intro c hc
    have hne1c : ¬ (c = d.clearCode) := by omega
    have hne2c : ¬ (c = d.endCode) := by
      simp only [Decompressor.endCode]; omega
    simp only [Decompressor.decompressCode, if_neg hne1c, if_neg hne2c,
      decompressReversed_gt d c buf hc]

/-- Concrete decompressor state for the C3 witness: the initial
`min_code_bits = 2` table with previous code 1. -/
def d3w : Decompressor :=
  { table := dtReset 4, minCodeBits := 2, codeBits := 3, last := some 1,
    code := 0, nBits := 0 }

/-- C3 witness: the theorem applied at a concrete state. -/
theorem C3_decompress_kwkwk_witness :
    d3w.decompressCode 7 [] = .error .invalidLzwData :=
  (C3_decompress_kwkwk d3w [] 1 (by decide) rfl (by decide)
    (by decide)).2 7 (by decide)

/-- C10 (amended): the freshly reset table satisfies the strict-parent
invariant; pushing a node with an in-table parent preserves it; a
decompression step preserves the invariant (together with the in-table
bound on the remembered previous code) provided a code at least
`next_code` never arrives while no previous code is set; and under the
invariant the parent walks are fuel-insensitive beyond `code` steps, i.e.
they terminate. -/
theorem C10_parent_invariant :
    (∀ k, WFd (dtReset k)) ∧
    (∀ (t : List DNode) (l dat : Nat), WFd t → l < t.length →
      WFd (t ++ [DNode.mk (some l) dat])) ∧
    (∀ (d : Decompressor) (c : Nat) (buf : List Nat) d2 buf2, DInv d →
      (d.last = none → c = d.clearCode ∨ c = d.endCode ∨
        c < d.table.length) →
      d.decompressCode c buf = .ok (d2, buf2) → DInv d2) ∧
    (∀ (t : List DNode) (c f : Nat), WFd t → c ≤ f →
      dtDecompRevGo t f c = dtDecompressReversed t c ∧
      dtLookupGo t f c = dtLookup t c) := by
  refine ⟨WFd_dtReset, WFd_push, ?_, ?_⟩
  · intro d c buf d2 buf2 hinv hguard hok
    by_cases h1 : c = d.clearCode
    · simp only [Decompressor.decompressCode, if_pos h1,
        Except.ok.injEq, Prod.mk.injEq] at hok
      rw [← hok.1]
      exact ⟨WFd_dtReset _, by simp⟩
    · by_cases h2 : c = d.endCode
      · simp only [Decompressor.decompressCode, if_neg h1, if_pos h2,
          Except.ok.injEq, Prod.mk.injEq] at hok
        rw [← hok.1]
        exact hinv
      · rcases hlast : d.last with _ | l
        · have hcl : c < d.table.length := by
            rcases hguard hlast with h | h | h
            · exact absurd h h1
            · exact absurd h h2
            · exact h
          simp only [Decompressor.decompressCode, if_neg h1, if_neg h2,
            decompressReversed_last_none d c buf hlast (le_of_lt hcl),
            Except.ok.injEq, Prod.mk.injEq] at hok
          rw [← hok.1]
          refine ⟨by simpa using hinv.1, ?_⟩
          intro x hx
          simp only [bumpBits_last] at hx
          simp only [bumpBits_table]
          cases hx
          exact hcl
        · have hll := hinv.2 l hlast
          rcases Nat.lt_trichotomy c d.table.length with hlt | heq | hgt
          · simp only [Decompressor.decompressCode, if_neg h1, if_neg h2,
              decompressReversed_last_lt d c l buf hlast hlt,
              Except.ok.injEq, Prod.mk.injEq] at hok
            rw [← hok.1]
            constructor
            · simpa using WFd_push d.table l _ hinv.1 hll
            · intro x hx
              simp only [bumpBits_last] at hx
              cases hx
              simp only [bumpBits_table, List.length_append,
                List.length_singleton]
              omega
          · subst heq
            simp only [Decompressor.decompressCode, if_neg h1, if_neg h2,
              decompressReversed_last_eq d l buf hlast,
              Except.ok.injEq, Prod.mk.injEq] at hok
            rw [← hok.1]
            constructor
            · simpa using WFd_push d.table l _ hinv.1 hll
            · intro x hx
              simp only [bumpBits_last] at hx
              cases hx
              simp only [bumpBits_table, List.length_append,
                List.length_singleton]
              omega
          · simp only [Decompressor.decompressCode, if_neg h1, if_neg h2,
              decompressReversed_gt d c buf hgt] at hok
            cases hok
  · intro t c f hwf hcf
    exact ⟨dtDecompRevGo_fuel t hwf c f c hcf (le_refl c),
      dtLookupGo_fuel t hwf c f c hcf (le_refl c)⟩

/-- C10 witness: the termination conjunct applied at a concrete table. -/
theorem C10_parent_invariant_witness :
    dtDecompRevGo (dtReset 4) 5 2 = dtDecompressReversed (dtReset 4) 2 ∧
    dtLookupGo (dtReset 4) 5 2 = dtLookup (dtReset 4) 2 :=
  C10_parent_invariant.2.2.2 (dtReset 4) 2 5 (by decide) (by omega)

/-- C10 counterexample: decompressing the single byte `0x06` with a fresh
`min_code_bits = 2` decompressor unpacks the codes 6 and 0; processing
them creates a node whose parent pointer equals its own index (6), so the
strict-parent invariant is not preserved by every table operation. -/
theorem C10_counterexample :
    ((resultTable ((Decompressor.new 2).decompress [6] [])).getD 6
        dnode0).parent = some 6 ∧
    ¬ WFd (resultTable ((Decompressor.new 2).decompress [6] [])) := by
  constructor
  · rfl
  · decide

/-- State reached while feeding literal code 0 repeatedly to a fresh
`min_code_bits = 2` decompressor. -/
def growState (d : Decompressor) : Prop :=
  d.minCodeBits = 2 ∧ d.last = some 0 ∧ d.table.getD 0 dnode0 = dnode0 ∧
    6 ≤ d.table.length

lemma grow_step (d : Decompressor) (buf : List Nat) (hg : growState d) :
    ∃ d2, d.decompressCode 0 buf = .ok (d2, buf ++ [0]) ∧ growState d2 ∧
      d2.table.length = d.table.length + 1 := by
  obtain ⟨hm, hl, h0, hlen⟩ := hg
  have h1 : ¬ ((0 : Nat) = d.clearCode) := by
    simp [Decompressor.clearCode, hm]
  have h2 : ¬ ((0 : Nat) = d.endCode) := by
    simp [Decompressor.endCode, Decompressor.clearCode, hm]
  have hwalk : dtDecompressReversed d.table 0 = [0] := by
    unfold dtDecompressReversed
    simp only [dtDecompRevGo, h0]
    rfl
  have hdata : (buf ++ [0]).getLastD 0 = (0 : Nat) := by
    rw [List.getLastD_concat]
  refine ⟨{ bumpBits d.table.length
      { d with table := d.table ++ [DNode.mk (some 0) 0] } with
      last := some 0 }, ?_, ⟨by simp [hm], rfl, ?_, ?_⟩, ?_⟩
  · simp only [Decompressor.decompressCode, if_neg h1, if_neg h2,
      decompressReversed_last_lt d 0 0 buf hl (by omega), hdata, hwalk]
    rw [List.take_left, List.drop_left]
    rfl
  · simp only [bumpBits_table]
    rw [getD_append_lt d.table _ 0 (by omega)]
    exact h0
  · simp only [bumpBits_table, List.length_append, List.length_singleton]
    omega
  · simp only [bumpBits_table, List.length_append, List.length_singleton]

lemma feed_zeros :
    ∀ (n : Nat) (d : Decompressor) (buf : List Nat), growState d →
      ∃ d2, feedCodes d buf (List.replicate n 0) =
          .ok (d2, buf ++ List.replicate n 0) ∧
        growState d2 ∧ d2.table.length = d.table.length + n := by
  intro n
  induction n with
  | zero =>
    intro d buf hg
    exact ⟨d, by simp [feedCodes], hg, by omega⟩
  | succ k ih =>
    intro d buf hg
    obtain ⟨d1, hstep, hg1, hlen1⟩ := grow_step d buf hg
    obtain ⟨d2, hfeed, hg2, hlen2⟩ := ih d1 (buf ++ [0]) hg1
    refine ⟨d2, ?_, hg2, by omega⟩
    rw [List.replicate_succ]
    simp only [feedCodes, hstep, hfeed]
    rw [List.append_assoc, List.singleton_append]

/-- State after the first literal 0 fed to `Decompressor::new(2)`. -/
def d1val : Decompressor :=
  { table := dtReset 4, minCodeBits := 2, codeBits := 3, last := some 0,
    code := 0, nBits := 0 }

lemma feed_first (rest : List Nat) :
    feedCodes (Decompressor.new 2) [] (0 :: rest) =
      feedCodes d1val [0] rest := rfl

/-- C2 (amended): the compressor invariant — code width at most 12 and
table at most 4096 entries — holds after any run of the per-byte loop,
and after `Compressor::compress` from a fresh compressor, for min code
bits in `[2, 8]`; the decompressor's table is reset to the initial
literal-plus-sentinel population exactly on a clear code. -/
theorem C2_table_bound :
    (∀ (m : Nat) (bytes : List Nat) (c : Compressor) (pfx : Option Nat)
      (buffer : List Nat), 2 ≤ m → m ≤ 8 → CInv m c →
        CInv m ((c.compressFold pfx buffer bytes).1)) ∧
    (∀ (m : Nat) (bytes : List Nat), 2 ≤ m → m ≤ 8 →
      (((Compressor.new m).compress bytes []).1).table.length ≤ 4096) ∧
    (∀ (c3 : Compressor) (pfx2 : Option Nat) (buffer2 : List Nat),
      c3.codeBits ≤ maxBits → c3.table.length > entries maxBits →
      (c3.widthCheck pfx2 buffer2).1.table = ctReset (2 ^ c3.minCodeBits) ∧
        (c3.widthCheck pfx2 buffer2).2.2 =
          (c3.pack c3.clearCode buffer2).2) ∧
    (∀ (d : Decompressor) (buf : List Nat),
      d.decompressCode d.clearCode buf =
        .ok ({ d with table := dtReset d.clearCode,
                      codeBits := bitsFrom (d.minCodeBits + 1),
                      last := none }, buf)) ∧
    (∀ (d : Decompressor) (c : Nat) (buf : List Nat) d2 buf2,
      ¬ c = d.clearCode → d.decompressCode c buf = .ok (d2, buf2) →
        d2.table = d.table ∨ ∃ n, d2.table = d.table ++ [n]) := by
  refine ⟨?_, ?_, ?_, ?_, ?_⟩
  · intro m bytes c pfx buffer _ hm8 hc
    exact compressFold_CInv m hm8 bytes c pfx buffer hc
  · intro m bytes _ hm8
    have h := compress_CInv m hm8 (Compressor.new m) bytes [] (CInv_new m hm8)
    simpa [entries, maxBits] using h.2.2
  · intro c3 pfx2 buffer2 hb12 hgt
    have hbits : entries c3.codeBits ≤ entries maxBits :=
      Nat.pow_le_pow_right (by norm_num) hb12
    constructor
    · simp only [Compressor.widthCheck]
      rw [if_pos (by omega), if_neg (by omega)]
      simp [Compressor.clearCode]
    · simp only [Compressor.widthCheck]
      rw [if_pos (by omega), if_neg (by omega)]
  · intro d buf
    simp [Decompressor.decompressCode]
  · intro d c buf d2 buf2 hne hok
    simp only [Decompressor.decompressCode, if_neg hne] at hok
    by_cases h2 : c = d.endCode
    · rw [if_pos h2] at hok
      simp only [Except.ok.injEq, Prod.mk.injEq] at hok
      left
      rw [← hok.1]
    · rw [if_neg h2] at hok
      rcases hlast : d.last with _ | l
      · rcases Nat.lt_or_ge d.table.length c with hgt | hle
        · rw [decompressReversed_gt d c buf hgt] at hok
          cases hok
        · rw [decompressReversed_last_none d c buf hlast hle] at hok
          simp only [Except.ok.injEq, Prod.mk.injEq] at hok
          left
          rw [← hok.1]
          simp
      · rcases Nat.lt_trichotomy c d.table.length with hlt | heq | hgt
        · rw [decompressReversed_last_lt d c l buf hlast hlt] at hok
          simp only [Except.ok.injEq, Prod.mk.injEq] at hok
          right
          refine ⟨DNode.mk (some l)
            ((buf ++ dtDecompressReversed d.table c).getLastD 0), ?_⟩
          rw [← hok.1]
          simp
        · subst heq
          rw [decompressReversed_last_eq d l buf hlast] at hok
          simp only [Except.ok.injEq, Prod.mk.injEq] at hok
          right
          refine ⟨DNode.mk (some l) (dtLookup d.table l), ?_⟩
          rw [← hok.1]
          simp
        · rw [decompressReversed_gt d c buf hgt] at hok
          cases hok

/-- C2 witness: the compressor bound at a concrete input. -/
theorem C2_table_bound_witness :
    (((Compressor.new 2).compress [0] []).1).table.length ≤ 4096 :=
  C2_table_bound.2.1 2 [0] (by norm_num) (by norm_num)

/-- C2 counterexample: with min code bits 12 the decompressor table starts
with 4098 entries, and feeding the crafted code stream `0, 0, 0, …` (4092
codes) to a fresh `min_code_bits = 2` decompressor grows its table to 4097
entries — the decompressor never resets on growth past 4096. -/
theorem C2_counterexample :
    (Decompressor.new 12).table.length = 4098 ∧
    (resultTable (feedCodes (Decompressor.new 2) []
      (0 :: List.replicate 4091 0))).length = 4097 := by
  constructor
  · simp [Decompressor.new, dtReset_length]
  · have hgs : growState d1val := by
      refine ⟨rfl, rfl, rfl, ?_⟩
      simp [d1val, dtReset_length]
    obtain ⟨d2, hfeed, _, hlen⟩ := feed_zeros 4091 d1val [0] hgs
    rw [feed_first, hfeed]
    have h6 : d1val.table.length = 6 := by simp [d1val, dtReset_length]
    simp only [resultTable]
    omega

/-- C1: the LZW round trip fails — compressing `[0, 1]` at min code bits 2
and decompressing the produced bytes yields `[0]`, because `compress`
never flushes the last partial byte of the bit buffer. -/
theorem C1_round_trip_failure :
    lzwRoundTrip 2 [0, 1] = .ok [0] ∧ ¬ ([0] : List Nat) = [0, 1] := by
  constructor
  · rfl
  · decide

end Gift.Lzw

namespace Gift

/-- Bitwise NOT on a `u8` value (`!x` in Rust, for `x ≤ 255`). -/
def notU8 (x : Nat) : Nat := 255 ^^^ x

/-- `DisposalMethod` (`block.rs`). -/
inductive DisposalMethod where
  | noAction
  | keep
  | background
  | previous
  | reserved (n : Nat)
  deriving DecidableEq, Repr

/-- `impl From<u8> for DisposalMethod`. -/
def DisposalMethod.fromU8 (n : Nat) : DisposalMethod :=
  match n &&& 7 with
  | 0 => .noAction
  | 1 => .keep
  | 2 => .background
  | 3 => .previous
  | _ => .reserved n

/-- `impl From<DisposalMethod> for u8`. -/
def DisposalMethod.toU8 : DisposalMethod → Nat
  | .noAction => 0
  | .keep => 1
  | .background => 2
  | .previous => 3
  | .reserved n => n &&& 7

/-- `GraphicControl` (`block.rs`): packed flags, delay in centiseconds,
transparent color index. -/
structure GraphicControl where
  flags : Nat
  delayTimeCs : Nat
  transparentColorIdx : Nat
  deriving DecidableEq, Repr

namespace GraphicControl

/-- `GraphicControl::default()`. -/
def mk0 : GraphicControl := ⟨0, 0, 0⟩

/-- `DISPOSAL_METHOD` mask `0b0001_1100`. -/
def disposalMask : Nat := 28

/-- `USER_INPUT` mask `0b0000_0010`. -/
def userInputMask : Nat := 2

/-- `TRANSPARENT_COLOR` mask `0b0000_0001`. -/
def transparentMask : Nat := 1

/-- `GraphicControl::disposal_method`. -/
def disposalMethod (g : GraphicControl) : DisposalMethod :=
  DisposalMethod.fromU8 ((g.flags &&& disposalMask) >>> 2)

/-- `GraphicControl::set_disposal_method` — note the source computes
`(self.flags | !DISPOSAL_METHOD) | (d << 2)` (bitwise OR with the
complement, not AND). -/
def setDisposalMethod (g : GraphicControl) (d : DisposalMethod) :
    GraphicControl :=
  { g with flags := (g.flags ||| notU8 disposalMask) ||| (d.toU8 <<< 2) }

/-- `GraphicControl::user_input`. -/
def userInput (g : GraphicControl) : Bool :=
  g.flags &&& userInputMask != 0

/-- `GraphicControl::set_user_input` — the source computes
`(self.flags | !USER_INPUT) | u`. -/
def setUserInput (g : GraphicControl) (u : Bool) : GraphicControl :=
  { g with flags := (g.flags ||| notU8 userInputMask) |||
      ((if u then 1 else 0) <<< 1) }

/-- `GraphicControl::transparent_color`. -/
def transparentColor (g : GraphicControl) : Option Nat :=
  if g.flags &&& transparentMask != 0 then some g.transparentColorIdx
  else none

/-- `GraphicControl::set_transparent_color` — the `None` arm computes
`self.flags |= !TRANSPARENT_COLOR`. -/
def setTransparentColor (g : GraphicControl) (t : Option Nat) :
    GraphicControl :=
  match t with
  | some v => { g with flags := g.flags ||| transparentMask,
                       transparentColorIdx := v }
  | none => { g with flags := g.flags ||| notU8 transparentMask,
                     transparentColorIdx := 0 }

/-- `GraphicControl::set_flags`. -/
def setFlags (g : GraphicControl) (flags : Nat) : GraphicControl :=
  { g with flags }

/-- `GraphicControl::set_delay_time_cs`. -/
def setDelayTimeCs (g : GraphicControl) (d : Nat) : GraphicControl :=
  { g with delayTimeCs := d }

/-- `GraphicControl::set_transparent_color_idx`. -/
def setTransparentColorIdx (g : GraphicControl) (i : Nat) : GraphicControl :=
  { g with transparentColorIdx := i }

end GraphicControl

/-- The identifier bytes of `"NETSCAPE2.0"`. -/
def netscapeId : List Nat := [78, 69, 84, 83, 67, 65, 80, 69, 50, 46, 48]

/-- The identifier bytes of `"ANIMEXTS1.0"`. -/
def animextsId : List Nat := [65, 78, 73, 77, 69, 88, 84, 83, 49, 46, 48]

/-- `Application::is_looping`. -/
def isLooping (appId : List Nat) : Bool :=
  appId = netscapeId ∨ appId = animextsId

/-- `Application::with_loop_count` — pushes the identifier sub-block, then
`vec![1]` extended with `(loop_count >> 8) as u8` and `loop_count as u8`
(in that order). -/
def applicationWithLoopCount (loopCount : Nat) : List (List Nat) :=
  [netscapeId, [1, (loopCount >>> 8) % 256, loopCount % 256]]

/-- `Application::loop_count` — two sub-blocks, a looping identifier and a
3-byte payload starting with sub-block ID 1; the count is
`d[1][1] << 8 | d[1][2]`. -/
def applicationLoopCount (appData : List (List Nat)) : Option Nat :=
  if appData.length = 2 ∧ isLooping (appData.getD 0 []) ∧
      (appData.getD 1 []).length = 3 ∧ (appData.getD 1 []).getD 0 0 = 1 then
    some ((((appData.getD 1 []).getD 1 0) <<< 8) |||
      ((appData.getD 1 []).getD 2 0))
  else none

/-- `ImageData` (`block.rs`): the data vector (whose first byte is the LZW
minimum code size) together with its reserved capacity `image_sz + 1`. -/
structure ImageData where
  cap : Nat
  data : List Nat
  deriving DecidableEq, Repr

namespace ImageData

/-- `ImageData::new` — reserve `image_sz + 1` bytes and push the minimum
code size clamped to `[2, 12]`. -/
def new (imageSz minCodeSize : Nat) : ImageData :=
  { cap := imageSz + 1, data := [min (max 2 minCodeSize) 12] }

/-- `ImageData::is_complete`. -/
def isComplete (b : ImageData) : Bool :=
  b.data.length = b.cap

/-- `ImageData::add_data` — append, truncating at the reserved capacity. -/
def addData (b : ImageData) (data : List Nat) : ImageData :=
  let rem := b.cap - b.data.length
  if data.length ≤ rem then { b with data := b.data ++ data }
  else { b with data := b.data ++ data.take rem }

/-- `ImageData::min_code_size`. -/
def minCodeSize (b : ImageData) : Nat := b.data.getD 0 0

/-- `ImageData::data` — the image bytes after the minimum code size. -/
def dataBytes (b : ImageData) : List Nat := b.data.drop 1

end ImageData

/-- `LogicalScreenDesc` (`block.rs`). -/
structure LogicalScreenDesc where
  screenWidth : Nat
  screenHeight : Nat
  flags : Nat
  backgroundColorIdx : Nat
  pixelAspectRatio : Nat
  deriving DecidableEq, Repr

/-- `LogicalScreenDesc::color_table_config().size_bytes()`: 3 bytes per
entry when the present bit (7) is set, table length `2 << (flags & 7)`. -/
def LogicalScreenDesc.colorTableSizeBytes (b : LogicalScreenDesc) : Nat :=
  if b.flags &&& 128 != 0 then (2 <<< (b.flags &&& 7)) * 3 else 0

/-- `ImageDesc` (`block.rs`). -/
structure ImageDesc where
  left : Nat
  top : Nat
  width : Nat
  height : Nat
  flags : Nat
  deriving DecidableEq, Repr

/-- `ImageDesc::color_table_config().size_bytes()`. -/
def ImageDesc.colorTableSizeBytes (b : ImageDesc) : Nat :=
  if b.flags &&& 128 != 0 then (2 <<< (b.flags &&& 7)) * 3 else 0

/-- `ImageDesc::image_sz` — `width * height`. -/
def ImageDesc.imageSz (b : ImageDesc) : Nat := b.width * b.height

/-- `Block` (`block.rs`). -/
inductive Block where
  | header (version : List Nat)
  | logicalScreenDesc (b : LogicalScreenDesc)
  | globalColorTable (colors : List Nat)
  | plainText (subBlocks : List (List Nat))
  | graphicControl (b : GraphicControl)
  | comment (comments : List (List Nat))
  | application (appData : List (List Nat))
  | unknown (subBlocks : List (List Nat))
  | imageDesc (b : ImageDesc)
  | localColorTable (colors : List Nat)
  | imageData (b : ImageData)
  | trailer
  deriving DecidableEq, Repr

/-- `Block::has_sub_blocks`. -/
def Block.hasSubBlocks : Block → Bool
  | .plainText _ | .graphicControl _ | .comment _ | .application _
  | .unknown _ | .imageData _ => true
  | _ => false

/-- `BlockCode` (`block.rs`). -/
inductive BlockCode where
  | header_
  | logicalScreenDesc_
  | globalColorTable_
  | extension_
  | imageDesc_
  | localColorTable_
  | imageData_
  | trailer_
  deriving DecidableEq, Repr

/-- `BlockCode::from_u8` — introducer bytes `0x2C`, `0x21`, `0x3B`. -/
def BlockCode.fromU8 (t : Nat) : Option BlockCode :=
  if t = 0x2C then some .imageDesc_
  else if t = 0x21 then some .extension_
  else if t = 0x3B then some .trailer_
  else none

/-- `BlockCode::size`. -/
def BlockCode.size : BlockCode → Nat
  | .header_ => 6
  | .logicalScreenDesc_ => 7
  | .imageDesc_ => 10
  | .trailer_ => 1
  | .extension_ => 2
  | .imageData_ => 1
  | _ => 0

/-- `Header::from_buf` (`decode.rs`) — requires the `"GIF"` magic and
version `"87a"` or `"89a"`. -/
def headerFromBuf (buf : List Nat) : Except Error Block :=
  if buf.take 3 = [0x47, 0x49, 0x46] then
    let version := [buf.getD 3 0, buf.getD 4 0, buf.getD 5 0]
    if version = [0x38, 0x37, 0x61] ∨ version = [0x38, 0x39, 0x61] then
      .ok (.header version)
    else .error (.unsupportedVersion version)
  else .error .malformedHeader

/-- `LogicalScreenDesc::from_buf` (`decode.rs`) — little-endian 16-bit
fields. -/
def lsdFromBuf (buf : List Nat) : LogicalScreenDesc :=
  { screenWidth := ((buf.getD 1 0) <<< 8) ||| buf.getD 0 0
    screenHeight := ((buf.getD 3 0) <<< 8) ||| buf.getD 2 0
    flags := buf.getD 4 0
    backgroundColorIdx := buf.getD 5 0
    pixelAspectRatio := buf.getD 6 0 }

/-- `ImageDesc::from_buf` (`decode.rs`) — buffer starts with the `0x2C`
separator byte. -/
def imageDescFromBuf (buf : List Nat) : ImageDesc :=
  { left := ((buf.getD 2 0) <<< 8) ||| buf.getD 1 0
    top := ((buf.getD 4 0) <<< 8) ||| buf.getD 3 0
    width := ((buf.getD 6 0) <<< 8) ||| buf.getD 5 0
    height := ((buf.getD 8 0) <<< 8) ||| buf.getD 7 0
    flags := buf.getD 9 0 }

/-- `ImageData::from_buf` (`decode.rs`) — the minimum code size must
survive the `[2, 12]` clamp of `ImageData::new` unchanged. -/
def imageDataFromBuf (imageSz : Nat) (buf : List Nat) : Except Error Block :=
  let minCode := buf.getD 0 0
  let b := ImageData.new imageSz minCode
  if b.minCodeSize = minCode then .ok (.imageData b)
  else .error .invalidCodeSize

/-- `Block::parse_extension` (`decode.rs`) — dispatch on the label byte. -/
def parseExtension (buf : List Nat) : Block :=
  let label := buf.getD 1 0
  if label = 0x01 then .plainText []
  else if label = 0xF9 then .graphicControl GraphicControl.mk0
  else if label = 0xFE then .comment []
  else if label = 0xFF then .application []
  else .unknown [[label]]

/-- `GraphicControl::parse_buf` (`decode.rs`) — one sub-block of exactly
4 bytes. -/
def gcParseBuf (g : GraphicControl) (buf : List Nat) :
    Except Error GraphicControl :=
  if buf.length = 4 then
    .ok ((((g.setFlags (buf.getD 0 0)).setDelayTimeCs
      (((buf.getD 2 0) <<< 8) ||| buf.getD 1 0)).setTransparentColorIdx
      (buf.getD 3 0)))
  else .error .malformedGraphicControlExtension

/-- `BUF_SZ` (`decode.rs`). -/
def bufSz : Nat := 1024

/-- The state of the `Blocks` iterator (`decode.rs`): the reader (remaining
input bytes), the size cap, the data buffer, the expected-next context, the
current image size, the LZW decoder, and the done flag. -/
structure Blocks where
  reader : List Nat
  maxImageSz : Option Nat
  buffer : List Nat
  expectedNext : Option (BlockCode × Nat)
  imageSz : Nat
  decoder : Option Lzw.Decompressor
  done : Bool

/-- `Blocks::new`. -/
def Blocks.new (reader : List Nat) (maxImageSz : Option Nat) : Blocks :=
  { reader
    maxImageSz
    buffer := []
    expectedNext := some (.header_, BlockCode.size .header_)
    imageSz := 0
    decoder := none
    done := false }

/-- `Blocks::fill_buffer` — read until the buffer holds `BUF_SZ` bytes or
the reader is exhausted. -/
def Blocks.fillBuffer (s : Blocks) : Blocks :=
  let k := bufSz - s.buffer.length
  { s with buffer := s.buffer ++ s.reader.take k, reader := s.reader.drop k }

/-- `Blocks::expected` — the context-dictated next block code and size. -/
def Blocks.expected (s : Blocks) (bc : BlockCode) :
    Option (BlockCode × Nat) :=
  match bc with
  | .header_ => some (.logicalScreenDesc_, BlockCode.size .logicalScreenDesc_)
  | .logicalScreenDesc_ =>
    let sz := BlockCode.size .logicalScreenDesc_
    if s.buffer.length ≥ sz then
      let b := lsdFromBuf (s.buffer.take sz)
      let csz := b.colorTableSizeBytes
      if csz > 0 then some (.globalColorTable_, csz) else none
    else none
  | .imageDesc_ =>
    let sz := BlockCode.size .imageDesc_
    if s.buffer.length ≥ sz then
      let b := imageDescFromBuf (s.buffer.take sz)
      let csz := b.colorTableSizeBytes
      if csz > 0 then some (.localColorTable_, csz)
      else some (.imageData_, BlockCode.size .imageData_)
    else none
  | .localColorTable_ => some (.imageData_, BlockCode.size .imageData_)
  | .trailer_ => some (.header_, BlockCode.size .header_)
  | _ => none

/-- `Blocks::examine_buffer` — take the expected context or read an
introducer byte. -/
def Blocks.examineBuffer (s : Blocks) :
    Except Error (BlockCode × Nat) × Blocks :=
  match s.buffer.head? with
  | none => (.error .unexpectedEndOfFile, s)
  | some code =>
    let taken := s.expectedNext
    let s1 := { s with expectedNext := none }
    let bcsz :=
      match taken with
      | some b => some b
      | none => (BlockCode.fromU8 code).map (fun b => (b, b.size))
    match bcsz with
    | some b => (.ok b, { s1 with expectedNext := s1.expected b.1 })
    | none => (.error .invalidBlockCode, s1)

/-- `Blocks::parse_block`. -/
def Blocks.parseBlock (s : Blocks) (bc : BlockCode) (sz : Nat) :
    Except Error Block :=
  let buf := s.buffer.take sz
  match bc with
  | .header_ => headerFromBuf buf
  | .logicalScreenDesc_ => .ok (.logicalScreenDesc (lsdFromBuf buf))
  | .globalColorTable_ => .ok (.globalColorTable buf)
  | .extension_ => .ok (parseExtension buf)
  | .imageDesc_ => .ok (.imageDesc (imageDescFromBuf buf))
  | .localColorTable_ => .ok (.localColorTable buf)
  | .imageData_ => imageDataFromBuf s.imageSz buf
  | .trailer_ => .ok .trailer

/-- `Blocks::check_block_start` — record the image size (checking the
cap) and create the LZW decoder. -/
def Blocks.checkBlockStart (s : Blocks) (block : Block) :
    Except Error Unit × Blocks :=
  match block with
  | .imageDesc b =>
    let s1 := { s with imageSz := b.imageSz }
    match s.maxImageSz with
    | some m =>
      if b.imageSz > m then (.error .tooLargeImage, s1) else (.ok (), s1)
    | none => (.ok (), s1)
  | .imageData b =>
    (.ok (), { s with decoder := some (Lzw.Decompressor.new b.minCodeSize) })
  | _ => (.ok (), s)

/-- `Blocks::decode_block`. -/
def Blocks.decodeBlock (s : Blocks) (bc : BlockCode) (sz : Nat) :
    Except Error Block × Blocks :=
  if s.buffer.length ≥ sz then
    match s.parseBlock bc sz with
    | .error e => (.error e, s)
    | .ok block =>
      let s1 := { s with buffer := s.buffer.drop sz }
      match s1.checkBlockStart block with
      | (.error e, s2) => (.error e, s2)
      | (.ok _, s2) => (.ok block, s2)
  else (.error .unexpectedEndOfFile, s)

/-- Modelled from the spec: `Blocks::decode_image_data` of this revision
drives the external `lzw` crate decoder, whose code is not part of this
repository; per §4.4 of the spec the decompression applied to image-data
sub-blocks is the LZW decompressor state machine, embodied here by the
repository's own `Decompressor`. -/
def Blocks.decodeImageData (s : Blocks) (b : ImageData) (data : List Nat) :
    Except Error Unit × Blocks × Block :=
  match s.decoder with
  | some dec =>
    match dec.decompress data [] with
    | .error e => (.error e, s, .imageData b)
    | .ok (dec2, out) =>
      (.ok (), { s with decoder := some dec2 }, .imageData (b.addData out))
  | none => (.ok (), s, .imageData b)

/-- `Blocks::parse_sub_block` — dispatch one sub-block body (the bytes
`buffer[1..bsz]`) to the block being assembled. -/
def Blocks.parseSubBlock (s : Blocks) (block : Block) (bsz : Nat) :
    Except Error Unit × Blocks × Block :=
  let data := (s.buffer.take bsz).drop 1
  match block with
  | .plainText l => (.ok (), s, .plainText (l ++ [data]))
  | .graphicControl g =>
    match gcParseBuf g data with
    | .error e => (.error e, s, .graphicControl g)
    | .ok g2 => (.ok (), s, .graphicControl g2)
  | .comment l => (.ok (), s, .comment (l ++ [data]))
  | .application l => (.ok (), s, .application (l ++ [data]))
  | .unknown l => (.ok (), s, .unknown (l ++ [data]))
  | .imageData b => s.decodeImageData b data
  | b => (.ok (), s, b)

/-- `Blocks::decode_sub_block` — read one length-prefixed sub-block;
returns `true` while the chain continues. -/
def Blocks.decodeSubBlock (s : Blocks) (block : Block) :
    Except Error Bool × Blocks × Block :=
  let s1 := s.fillBuffer
  match s1.buffer.head? with
  | some szb =>
    if s1.buffer.length > szb then
      let bsz := szb + 1
      if szb > 0 then
        match s1.parseSubBlock block bsz with
        | (.error e, s2, b2) => (.error e, s2, b2)
        | (.ok _, s2, b2) =>
          (.ok true, { s2 with buffer := s2.buffer.drop bsz }, b2)
      else (.ok false, { s1 with buffer := s1.buffer.drop bsz }, block)
    else (.error .unexpectedEndOfFile, s1, block)
  | none => (.error .unexpectedEndOfFile, s1, block)

/-- The `while self.decode_sub_block(&mut block)? {}` loop, with fuel
(every iteration consumes at least one byte of buffer plus reader). -/
def Blocks.subBlockLoop : Nat → Blocks → Block →
    Except Error Unit × Blocks × Block
  | 0, s, b => (.ok (), s, b)
  | fuel + 1, s, b =>
    match s.decodeSubBlock b with
    | (.error e, s2, b2) => (.error e, s2, b2)
    | (.ok true, s2, b2) => Blocks.subBlockLoop fuel s2 b2
    | (.ok false, s2, b2) => (.ok (), s2, b2)

/-- `Blocks::check_block_end` — drop the decoder and require a complete
image. -/
def Blocks.checkBlockEnd (s : Blocks) (block : Block) :
    Except Error Unit × Blocks :=
  match block with
  | .imageData b =>
    let s1 := { s with decoder := none }
    if b.isComplete then (.ok (), s1) else (.error .incompleteImageData, s1)
  | _ => (.ok (), s)

/-- `Blocks::next_block` — one record plus its sub-block chain. -/
def Blocks.nextBlock (s : Blocks) : Except Error Block × Blocks :=
  let s1 := s.fillBuffer
  match s1.examineBuffer with
  | (.error e, s2) => (.error e, s2)
  | (.ok (bc, sz), s2) =>
    match s2.decodeBlock bc sz with
    | (.error e, s3) => (.error e, s3)
    | (.ok block, s3) =>
      let r :=
        if block.hasSubBlocks then
          Blocks.subBlockLoop (s3.buffer.length + s3.reader.length + 1) s3
            block
        else (.ok (), s3, block)
      match r with
      | (.error e, s4, _) => (.error e, s4)
      | (.ok _, s4, block2) =>
        match s4.checkBlockEnd block2 with
        | (.error e, s5) => (.error e, s5)
        | (.ok _, s5) => (.ok block2, s5)

/-- `impl Iterator for Blocks` — `next`: when `done` is set it is cleared
and end-of-stream is returned; otherwise one block is decoded and `done`
is set on a `Trailer` or an error. -/
def Blocks.next (s : Blocks) : Option (Except Error Block) × Blocks :=
  if s.done then (none, { s with done := false })
  else
    match s.nextBlock with
    | (.ok .trailer, s2) => (some (.ok .trailer), { s2 with done := true })
    | (.ok b, s2) => (some (.ok b), s2)
    | (.error e, s2) => (some (.error e), { s2 with done := true })

/-- State of the iterator after `n` calls to `next`. -/
def Blocks.afterCalls (s : Blocks) : Nat → Blocks
  | 0 => s
  | n + 1 => ((s.afterCalls n).next).2

/-- Item returned by call number `n + 1` to `next`. -/
def Blocks.callResult (s : Blocks) (n : Nat) : Option (Except Error Block) :=
  ((s.afterCalls n).next).1

/-- C4 (amended): yielding a Trailer or an error sets the done flag, and a
call with the done flag set returns end-of-stream while clearing the flag
(so later calls resume reading instead of returning end-of-stream
forever). -/
theorem C4_done_flag :
    (∀ s : Blocks, s.done = true →
      s.next = (none, { s with done := false })) ∧
    (∀ (s s2 : Blocks) (e : Error), s.done = false →
      s.next = (some (.error e), s2) → s2.done = true) ∧
    (∀ (s s2 : Blocks), s.done = false →
      s.next = (some (.ok .trailer), s2) → s2.done = true) := by
  refine ⟨?_, ?_, ?_⟩
  · intro s h
    simp [Blocks.next, h]
  · intro s s2 e hdone hnext
    rw [Blocks.next, if_neg (by simp [hdone])] at hnext
    rcases hnb : s.nextBlock with ⟨r, s3⟩
    rw [hnb] at hnext
    rcases r with e2 | b
    · simp only [Prod.mk.injEq] at hnext
      rw [← hnext.2]
    · cases b <;> simp_all
  · intro s s2 hdone hnext
    rw [Blocks.next, if_neg (by simp [hdone])] at hnext
    rcases hnb : s.nextBlock with ⟨r, s3⟩
    rw [hnb] at hnext
    rcases r with e2 | b
    · simp_all
    · cases b <;> simp_all
      rw [← hnext]

/-- Concrete done-state for the C4 witness. -/
def c4DoneState : Blocks := { Blocks.new [] none with done := true }

/-- C4 witness: the done-flag clause applied at a concrete state. -/
theorem C4_done_flag_witness :
    c4DoneState.next = (none, { c4DoneState with done := false }) :=
  C4_done_flag.1 c4DoneState rfl

/-- C4 counterexample: on the six-byte input `"GIF89\x60"` the first call
yields `UnsupportedVersion`, the second end-of-stream — but the third
yields `UnexpectedEndOfFile` instead of end-of-stream, because `next`
clears the done flag after one `None`. -/
theorem C4_counterexample :
    (Blocks.new [0x47, 0x49, 0x46, 0x38, 0x39, 0x60] none).callResult 0 =
      some (.error (.unsupportedVersion [0x38, 0x39, 0x60])) ∧
    (Blocks.new [0x47, 0x49, 0x46, 0x38, 0x39, 0x60] none).callResult 1 =
      none ∧
    (Blocks.new [0x47, 0x49, 0x46, 0x38, 0x39, 0x60] none).callResult 2 =
      some (.error .unexpectedEndOfFile) :=
  ⟨rfl, rfl, rfl⟩

/-- C5: `Application::with_loop_count(1)` emits the 3-byte payload
`[0x01, 0x00, 0x01]` — sub-block ID, then the HIGH byte, then the LOW
byte — not the little-endian `[0x01, 0x01, 0x00]` of the claim; the
matching big-endian reader `loop_count` still round-trips it. -/
theorem C5_loop_count_byte_order :
    applicationWithLoopCount 1 = [netscapeId, [1, 0, 1]] ∧
    ([1, 0, 1] : List Nat) ≠ [1, 1, 0] ∧
    applicationLoopCount (applicationWithLoopCount 1) = some 1 := by
  refine ⟨rfl, by decide, rfl⟩

/-- `ImageData::add_data` applied to a whole sequence of sub-block
payloads. -/
def ImageData.addAll (b : ImageData) (chunks : List (List Nat)) : ImageData :=
  chunks.foldl ImageData.addData b

lemma addData_cap (b : ImageData) (data : List Nat) :
    (b.addData data).cap = b.cap := by
  simp only [ImageData.addData]
  split <;> rfl

lemma addData_length (b : ImageData) (data : List Nat)
    (h : b.data.length ≤ b.cap) :
    (b.addData data).data.length ≤ b.cap ∧
      b.data.length ≤ (b.addData data).data.length := by
  simp only [ImageData.addData]
  split <;> rename_i hfit <;>
    simp only [List.length_append, List.length_take] <;> omega

lemma addAll_inv (imageSz minCode : Nat) :
    ∀ (chunks : List (List Nat)) (b : ImageData),
      b.cap = imageSz + 1 → 1 ≤ b.data.length → b.data.length ≤ b.cap →
      (b.addAll chunks).cap = imageSz + 1 ∧
        1 ≤ (b.addAll chunks).data.length ∧
        (b.addAll chunks).data.length ≤ imageSz + 1 := by
  intro chunks
  induction chunks with
  | nil =>
    intro b hc h1 hle
    exact ⟨hc, h1, hc ▸ hle⟩
  | cons d rest ih =>
    intro b hc h1 hle
    have hca := addData_cap b d
    have hl := addData_length b d hle
    exact ih (b.addData d) (hca.trans hc) (le_trans h1 hl.2)
      (hca ▸ hl.1)

/-- C6: running any sequence of `add_data` calls on a fresh `ImageData`
for `image_sz` bytes never stores more than `image_sz` image bytes
(excess is truncated, not an error); the block is complete exactly when
the decoded image bytes have length `image_sz = width·height`; and
`check_block_end` fails with `IncompleteImageData` exactly when the block
is incomplete. -/
theorem C6_image_data_length (imageSz minCode : Nat)
    (chunks : List (List Nat)) :
    ((ImageData.new imageSz minCode).addAll chunks).dataBytes.length ≤
      imageSz ∧
    (((ImageData.new imageSz minCode).addAll chunks).isComplete = true ↔
      ((ImageData.new imageSz minCode).addAll chunks).dataBytes.length =
        imageSz) ∧
    (∀ s : Blocks,
      (s.checkBlockEnd
          (.imageData ((ImageData.new imageSz minCode).addAll chunks))).1 =
        if ((ImageData.new imageSz minCode).addAll chunks).isComplete
        then .ok () else .error .incompleteImageData) := by
  obtain ⟨hcap, h1, hle⟩ := addAll_inv imageSz minCode chunks
    (ImageData.new imageSz minCode) rfl (by simp [ImageData.new])
    (by simp [ImageData.new])
  refine ⟨?_, ?_, ?_⟩
  · simp only [ImageData.dataBytes, List.length_drop]
    omega
  · simp only [ImageData.isComplete, ImageData.dataBytes, List.length_drop,
      hcap, decide_eq_true_eq]
    omega
  · intro s
    simp only [Blocks.checkBlockEnd]
    split <;> rename_i hcomp <;> simp_all

/-- C6 witness: a concrete complete image block. -/
theorem C6_image_data_length_witness :
    ((ImageData.new 2 2).addAll [[5, 7]]).dataBytes.length = 2 :=
  (C6_image_data_length 2 2 [[5, 7]]).2.1.mp rfl

/-- The per-pixel body of `update_raster` (`decode.rs`): bounds-check the
color index, then produce the RGBA entry (transparent pixels become
`SRgba8::default()`). -/
def pixelEntry (clrs : List Nat) (transClr : Option Nat) (idx : Nat) :
    Except Error (Nat × Nat × Nat × Nat) :=
  let i := 3 * idx
  if i + 2 > clrs.length then .error .invalidColorIndex
  else
    match transClr with
    | some t =>
      if t = idx then .ok (0, 0, 0, 0)
      else .ok (clrs.getD i 0, clrs.getD (i + 1) 0, clrs.getD (i + 2) 0, 255)
    | none =>
      .ok (clrs.getD i 0, clrs.getD (i + 1) 0, clrs.getD (i + 2) 0, 255)

/-- The pixel loop of `update_raster` over the frame's color indices,
aborting at the first invalid index. -/
def updatePixels (clrs : List Nat) (transClr : Option Nat) :
    List Nat → Except Error (List (Nat × Nat × Nat × Nat))
  | [] => .ok []
  | idx :: rest =>
    match pixelEntry clrs transClr idx with
    | .error e => .error e
    | .ok p =>
      match updatePixels clrs transClr rest with
      | .error e => .error e
      | .ok ps => .ok (p :: ps)

/-- C7: with a color table whose byte length is a multiple of 3, a pixel
index `i` is accepted exactly when `3·i + 2 <` the table length (the
source's test `i + 2 > clrs.len()` is equivalent since `3·i + 2` is never
a multiple of 3); rejection yields `InvalidColorIndex`, and on the
accepting path all three accessed offsets are in bounds. -/
theorem C7_color_index (clrs : List Nat) (transClr : Option Nat) (idx : Nat)
    (h3 : 3 ∣ clrs.length) :
    ((∃ p, pixelEntry clrs transClr idx = .ok p) ↔
      3 * idx + 2 < clrs.length) ∧
    (¬ 3 * idx + 2 < clrs.length →
      pixelEntry clrs transClr idx = .error .invalidColorIndex) ∧
    (3 * idx + 2 < clrs.length →
      3 * idx < clrs.length ∧ 3 * idx + 1 < clrs.length ∧
        3 * idx + 2 < clrs.length) ∧
    (∀ idxs : List Nat,
      (∃ ps, updatePixels clrs transClr idxs = .ok ps) ↔
        ∀ i ∈ idxs, 3 * i + 2 < clrs.length) := by
  obtain ⟨k, hk⟩ := h3
  have hentry : ∀ j, (∃ p, pixelEntry clrs transClr j = .ok p) ↔
      3 * j + 2 < clrs.length := by
    intro j
    constructor
    · rintro ⟨p, hp⟩
      by_contra hlt
      simp only [pixelEntry] at hp
      rw [if_pos (by omega)] at hp
      cases hp
    · intro hlt
      simp only [pixelEntry]
      rw [if_neg (by omega)]
      rcases transClr with _ | t
      · exact ⟨_, rfl⟩
      · dsimp only
        by_cases ht : t = j
        · rw [if_pos ht]; exact ⟨_, rfl⟩
        · rw [if_neg ht]; exact ⟨_, rfl⟩
  refine ⟨hentry idx, ?_, fun h => ⟨by omega, by omega, h⟩, ?_⟩
  · intro hlt
    simp only [pixelEntry]
    rw [if_pos (by omega)]
  · intro idxs
    induction idxs with
    | nil => simp [updatePixels]
    | cons i rest ih =>
      simp only [updatePixels]
      constructor
      · rintro ⟨ps, hps⟩
        rcases hpe : pixelEntry clrs transClr i with e | p
        · rw [hpe] at hps; cases hps
        · rw [hpe] at hps
          rcases hr : updatePixels clrs transClr rest with e | ps2
          · rw [hr] at hps; cases hps
          · intro j hj
            rcases List.mem_cons.mp hj with rfl | hjr
            · exact (hentry j).mp ⟨p, hpe⟩
            · exact (ih.mp ⟨ps2, hr⟩) j hjr
      · intro hall
        obtain ⟨p, hp⟩ := (hentry i).mpr (hall i (List.mem_cons_self i rest))
        obtain ⟨ps2, hp2⟩ :=
          ih.mpr (fun j hj => hall j (List.mem_cons_of_mem i hj))
        exact ⟨p :: ps2, by rw [hp, hp2]⟩

/-- C7 witness: index 1 against a 6-byte (two-entry) color table. -/
theorem C7_color_index_witness :
    ∃ p, pixelEntry [10, 20, 30, 40, 50, 60] none 1 = .ok p :=
  (C7_color_index [10, 20, 30, 40, 50, 60] none 1 (by decide)).1.mpr
    (by decide)

/-- `FrameEnc` (`encode.rs`): the two sequencing flags.  The byte output
through the wrapped writer is I/O and outside the model; the claim is
about the `(has_preamble, has_trailer)` state machine. -/
structure FrameEnc where
  hasPreamble : Bool
  hasTrailer : Bool
  deriving DecidableEq, Repr

/-- `FrameEnc::new`. -/
def FrameEnc.new : FrameEnc := ⟨false, false⟩

/-- `FrameEnc::encode_preamble`. -/
def FrameEnc.encodePreamble (e : FrameEnc) : Except Error Unit × FrameEnc :=
  if e.hasPreamble then (.error .invalidBlockSequence, e)
  else (.ok (), { e with hasPreamble := true })

/-- `FrameEnc::encode_frame`. -/
def FrameEnc.encodeFrame (e : FrameEnc) : Except Error Unit × FrameEnc :=
  if e.hasTrailer || !e.hasPreamble then (.error .invalidBlockSequence, e)
  else (.ok (), e)

/-- `FrameEnc::encode_trailer`. -/
def FrameEnc.encodeTrailer (e : FrameEnc) : Except Error Unit × FrameEnc :=
  if e.hasTrailer || !e.hasPreamble then (.error .invalidBlockSequence, e)
  else (.ok (), { e with hasTrailer := true })

/-- C8: `encode_preamble` fails with `InvalidBlockSequence` exactly when a
preamble was already encoded; `encode_frame` and `encode_trailer` fail
exactly when no preamble exists yet or a trailer was already encoded; and
every failing call leaves the `(has_preamble, has_trailer)` state
unchanged. -/
theorem C8_frame_enc_sequencing (e : FrameEnc) :
    ((e.encodePreamble.1 = .error .invalidBlockSequence ↔
        e.hasPreamble = true) ∧
      (e.encodeFrame.1 = .error .invalidBlockSequence ↔
        (e.hasPreamble = false ∨ e.hasTrailer = true)) ∧
      (e.encodeTrailer.1 = .error .invalidBlockSequence ↔
        (e.hasPreamble = false ∨ e.hasTrailer = true))) ∧
    ((e.encodePreamble.1 ≠ .ok () → e.encodePreamble.2 = e) ∧
      (e.encodeFrame.1 ≠ .ok () → e.encodeFrame.2 = e) ∧
      (e.encodeTrailer.1 ≠ .ok () → e.encodeTrailer.2 = e)) := by
  rcases e with ⟨hp, ht⟩
  cases hp <;> cases ht <;>
    simp [FrameEnc.encodePreamble, FrameEnc.encodeFrame,
      FrameEnc.encodeTrailer]

/-- C8 witness: a trailer cannot be encoded before the preamble. -/
theorem C8_frame_enc_sequencing_witness :
    FrameEnc.new.encodeTrailer.1 = .error .invalidBlockSequence :=
  (C8_frame_enc_sequencing FrameEnc.new).1.2.2.mpr (Or.inl rfl)

/-- C9: the packed-flag setters leak into other fields — the source ORs
with the complemented mask instead of ANDing.  On the default value,
`set_user_input(false)` forces the flags byte to `0xFD`, so the disposal
method reads `Reserved(7)` (was `NoAction`) and the transparent color
reads `Some(0)` (was `None`); `set_disposal_method(Background)` on a
`Keep` value reads back `Previous`. -/
theorem C9_setter_side_effects :
    GraphicControl.mk0.disposalMethod = .noAction ∧
    GraphicControl.mk0.transparentColor = none ∧
    (GraphicControl.mk0.setUserInput false).userInput = false ∧
    (GraphicControl.mk0.setUserInput false).flags = 0xFD ∧
    (GraphicControl.mk0.setUserInput false).disposalMethod = .reserved 7 ∧
    (GraphicControl.mk0.setUserInput false).transparentColor = some 0 ∧
    (GraphicControl.mk 4 0 0).disposalMethod = .keep ∧
    ((GraphicControl.mk 4 0 0).setDisposalMethod
        .background).disposalMethod = .previous ∧
    DisposalMethod.background ≠ DisposalMethod.previous := by
  decide

end Gift

